import Mathlib

set_option maxRecDepth 100000

/-!
Verification of the core algorithms of `frankenstein.py`:
the streak finder `find_50commits_month`, the time-of-day envelope
estimator `compute_commit_time_period`, and the commit redistributor
`redistribute_commits`.

Embedding conventions:
* A git log record becomes the structure `Commit` with the three fields the
  core reads or writes: author email, author date, committer date
  (epoch seconds, modelled as `Int`).
* The Python sentinel result `-1` becomes `none : Option Nat`.
* Local clock components (`datetime.datetime.fromtimestamp`) are modelled
  with the local timezone taken as UTC: the time of day of a timestamp `t`
  is `t % 86400` (`Int.emod`, so always in `[0, 86400)`), and the midnight
  of the calendar day of `t` is `t - t % 86400`.
* The process-wide random source `random.randint(lo, hi)` becomes an
  injected function `rand : Nat → Nat → Int → Int → Int`, indexed by the
  call site (day index, index within the day) and applied to the bounds of
  the draw; `randint`'s contract (`lo ≤ hi → lo ≤ rand d i lo hi ≤ hi`) is a
  hypothesis of the theorems that need it.
* The external distribution generator `gauss.generate_in_range` is not part
  of the sources; its output becomes the explicit `plan` argument of
  `redistribute_commits`, whose contract (29 entries, total in `[50, 60]`)
  enters the theorems as hypotheses.
* The in-place mutation of the log array becomes a returned list: the
  Python `raise` on a malformed plan is `Except.error` (the records are
  unchanged at that point), and a completed pass is `Except.ok` with the
  rewritten list.
-/

structure Commit where
  authorEmail : String
  authorDate : Int
  committerDate : Int
deriving DecidableEq, Repr

instance : Inhabited Commit := ⟨⟨"", 0, 0⟩⟩

/-- The 29-day span, in seconds: `29 * 24 * 3600` from the source. -/
def streakSpan : Int := 29 * 24 * 3600

/-- Inner loop of `find_50commits_month`: the backward scan
`for j in range(i-1, 0, -1)` with running count `nb`, given the candidate
end commit's author date `di`.  Returns `true` when the Python code executes
`return i`.  The scan visits `j, j-1, ..., 1` (never index 0).  The body is a
direct transcription of
`if author != None and logs[j]['author-email'] == author:` followed by the
span break, the count test and the increment. -/
def scan50 (logs : List Commit) (author : Option String) (di : Int) :
    Nat → Nat → Bool
  | 0, _ => false
  | j + 1, nb =>
    match author with
    | none => scan50 logs author di j nb
    | some a =>
      if (logs.getD (j + 1) default).authorEmail = a then
        if di - (logs.getD (j + 1) default).authorDate > streakSpan then
          false
        else if 50 ≤ nb then
          true
        else
          scan50 logs author di j (nb + 1)
      else scan50 logs author di j nb

/-- Outer loop of `find_50commits_month`: `for i in range(len(logs)-1, 50, -1)`,
descending from the argument.  The guard `50 < i` reproduces the stop value of
the Python range (candidates are `len-1, ..., 51`). -/
def find50From (logs : List Commit) (author : Option String) : Nat → Option Nat
  | 0 => none
  | i + 1 =>
    if 50 < i + 1 then
      if scan50 logs author ((logs.getD (i + 1) default).authorDate) i 0 then
        some (i + 1)
      else find50From logs author i
    else none

/-- `find_50commits_month(logs, author)` from the source; `none` is the
sentinel `-1`. -/
def find_50commits_month (logs : List Commit) (author : Option String) :
    Option Nat :=
  find50From logs author (logs.length - 1)

/-- Time of day of an epoch timestamp, seconds since local midnight
(local timezone modelled as UTC):
`commit_date.hour * 3600 + commit_date.minute * 60 + commit_date.second`. -/
def timeOfDay (t : Int) : Int := t % 86400

/-- Calendar day number of an epoch timestamp (days since the epoch, local
timezone modelled as UTC). -/
def calDay (t : Int) : Int := (t - t % 86400) / 86400

/-- Epoch value of the local midnight starting the calendar day of `t`:
`time.mktime(datetime.datetime.fromtimestamp(t).date().timetuple())`. -/
def midnight (t : Int) : Int := t - t % 86400

/-- One step of `compute_commit_time_period`'s loop: update the running
`(min_time, max_time)` pair with one commit's time of day
(`if commit_time < min_time`, `if commit_time > max_time`). -/
def envStep (p : Int × Int) (c : Commit) : Int × Int :=
  (if timeOfDay c.authorDate < p.1 then timeOfDay c.authorDate else p.1,
   if p.2 < timeOfDay c.authorDate then timeOfDay c.authorDate else p.2)

/-- `compute_commit_time_period(logs)` from the source: fold the update over
the slice, starting from `min_time = 3600 * 24`, `max_time = 0`. -/
def compute_commit_time_period (logs : List Commit) : Int × Int :=
  logs.foldl envStep (3600 * 24, 0)

/-- The window start index computed by `redistribute_commits`:
`start_commit = num_commit - total_commits + 1`, as the integer Python
computes (it can be negative, in which case Python's negative indexing
reaches records at the end of the list). -/
def startCommit (num_commit : Nat) (plan : List Nat) : Int :=
  (num_commit : Int) - (plan.sum : Int) + 1

/-- The per-day assignment loop of `redistribute_commits`, producing the new
timestamps in assignment order: for each day `d` of the plan (day epoch
`sd + d * 86400`), `plan[d]` draws `rand d i min_time max_time` are added to
the day's midnight.  `d` is the absolute day index (the recursion starts it
at 0). -/
def planTimestampsFrom (sd lo hi : Int) (rand : Nat → Nat → Int → Int → Int) :
    Nat → List Nat → List Int
  | _, [] => []
  | d, n :: rest =>
    (List.range n).map (fun i => sd + (d : Int) * 86400 + rand d i lo hi)
      ++ planTimestampsFrom sd lo hi rand (d + 1) rest

/-- All new timestamps of a redistribution pass, in the order the loop
assigns them to commits `start_commit, start_commit + 1, ...`. -/
def planTimestamps (sd lo hi : Int) (rand : Nat → Nat → Int → Int → Int)
    (plan : List Nat) : List Int :=
  planTimestampsFrom sd lo hi rand 0 plan

/-- Write the timestamps `ts` into consecutive records starting at index
`start`: record `start + k` gets `ts[k]` as both author and committer date.
This is the in-place assignment loop of `redistribute_commits` rendered as a
list transformation. -/
def applyTimestamps : List Commit → Nat → List Int → List Commit
  | [], _, _ => []
  | cs, _ + 1, [] => cs
  | c :: cs, s + 1, t :: ts => c :: applyTimestamps cs s (t :: ts)
  | cs, 0, [] => cs
  | c :: cs, 0, t :: ts =>
    { c with authorDate := t, committerDate := t } :: applyTimestamps cs 0 ts

/-- The envelope `redistribute_commits` computes:
`compute_commit_time_period(logs[start_commit : end_commit])` with
`end_commit = num_commit`, so the Python slice stops one short of the anchor
commit.  `start` is the already-computed window start (a `Nat`: the callers
below only use it when `startCommit` is nonnegative). -/
def redistributeEnvelope (logs : List Commit) (num_commit start : Nat) :
    Int × Int :=
  compute_commit_time_period ((logs.drop start).take (num_commit - start))

/-- `redistribute_commits(logs, num_commit)` from the source, with the
generator's plan and the random source injected.  Mirrors the Python line by
line: the length-29 contract check (`raise` becomes `Except.error`), the
plan total, the window start, the envelope over `logs[start_commit :
num_commit]`, the midnight of the window's first commit's original author
date, then the day-by-day assignment.  The `Nat` truncation in `.toNat`
is exact whenever `startCommit` is nonnegative; the theorems about the
rewritten list all assume that (Python would otherwise index from the end of
the list, see the safety analysis around `startCommit`). -/
def redistribute_commits (logs : List Commit) (num_commit : Nat)
    (plan : List Nat) (rand : Nat → Nat → Int → Int → Int) :
    Except String (List Commit) :=
  if plan.length ≠ 29 then
    Except.error "Incorrect number of commit numbers generated by the Gauss distribution."
  else
    Except.ok (applyTimestamps logs (startCommit num_commit plan).toNat
      (planTimestamps
        (midnight ((logs.getD (startCommit num_commit plan).toNat default).authorDate))
        (redistributeEnvelope logs num_commit (startCommit num_commit plan).toNat).1
        (redistributeEnvelope logs num_commit (startCommit num_commit plan).toNat).2
        rand plan))

/-- Commit index `m` qualifies for a window whose end commit has author date
`di`: it is visited by the backward scan (`m ≠ 0`), its author matches, and
its author date is within the 29-day span of `di`. -/
def qualifies (logs : List Commit) (a : String) (di : Int) (m : Nat) : Prop :=
  m ≠ 0 ∧ (logs.getD m default).authorEmail = a ∧
    di - (logs.getD m default).authorDate ≤ streakSpan

instance (logs : List Commit) (a : String) (di : Int) (m : Nat) :
    Decidable (qualifies logs a di m) := by
  unfold qualifies; infer_instance

/-- Number of qualifying indices in `[1, j]` for end date `di`. -/
def countQualUpTo (logs : List Commit) (a : String) (di : Int) (j : Nat) : Nat :=
  ((List.range (j + 1)).filter (fun m => decide (qualifies logs a di m))).length

/-- Number of qualifying indices strictly before candidate end commit `i`,
against commit `i`'s author date. -/
def countQualifying (logs : List Commit) (a : String) (i : Nat) : Nat :=
  countQualUpTo logs a ((logs.getD i default).authorDate) (i - 1)

/-- The inner backward scan of candidate `i`, exactly as
`find_50commits_month` runs it: from `j = i - 1` with count 0. -/
def scanHit (logs : List Commit) (author : Option String) (i : Nat) : Bool :=
  scan50 logs author ((logs.getD i default).authorDate) (i - 1) 0

/-- 60 commits by one author, all at the same instant: any 29-day window
holds all of them. -/
def c1Logs : List Commit :=
  List.replicate 60 { authorEmail := "alice", authorDate := 1000, committerDate := 1000 }

/-- 52 commits by one author at the same instant: candidate `i = 51` sees
exactly 50 qualifying commits (`j = 50, ..., 1`). -/
def c2Logs : List Commit :=
  List.replicate 52 { authorEmail := "alice", authorDate := 1000, committerDate := 1000 }

/-- 53 commits by one author at the same instant: candidate `i = 52` sees 51
qualifying commits and succeeds. -/
def c2wLogs : List Commit :=
  List.replicate 53 { authorEmail := "alice", authorDate := 1000, committerDate := 1000 }

/-- The list a successful redistribution pass leaves behind (`logs` itself
when the pass aborts on a malformed plan, mutating nothing). -/
def redistributed (logs : List Commit) (num_commit : Nat) (plan : List Nat)
    (rand : Nat → Nat → Int → Int → Int) : List Commit :=
  match redistribute_commits logs num_commit plan rand with
  | Except.ok L => L
  | Except.error _ => logs

/-- Modelled from the spec for comparison with the code: the envelope over
the window the spec words describe, the inclusive slice
`[start, num_commit]` that takes in the anchor commit itself
("all total_commits commits being squashed, including the anchor"). -/
def redistributeEnvelopeSpec (logs : List Commit) (num_commit start : Nat) :
    Int × Int :=
  compute_commit_time_period ((logs.drop start).take (num_commit + 1 - start))

/-- A random source that always answers with the lower bound; it satisfies
`randint`'s contract. -/
def randLo : Nat → Nat → Int → Int → Int := fun _ _ lo _ => lo

/-- A random source that answers the upper bound on the first draw of a day
and the lower bound afterwards; it satisfies `randint`'s contract and makes
the two commits of one synthetic day come out in decreasing order. -/
def randHiLo : Nat → Nat → Int → Int → Int :=
  fun _ i lo hi => if i = 0 then hi else lo

/-- 58 commits by one author, one second apart, all inside one calendar
day: author dates `100, 101, ..., 157`. -/
def logs58 : List Commit :=
  (List.range 58).map fun k =>
    { authorEmail := "a", authorDate := 100 + (k : Int), committerDate := 100 + (k : Int) }

/-- A 29-entry plan of two commits per day; its total 58 is in the
generator's `[50, 60]` contract range. -/
def plan29x2 : List Nat := List.replicate 29 2

/-- 60 commits by one author, one second apart, all inside one calendar
day. -/
def logs60 : List Commit :=
  (List.range 60).map fun k =>
    { authorEmail := "a", authorDate := 100 + (k : Int), committerDate := 100 + (k : Int) }

/-- 51 commits: 50 with times of day `200, ..., 249`, then an anchor commit
with time of day 86000, far outside the others' envelope. -/
def logs51x : List Commit :=
  ((List.range 50).map fun k =>
    { authorEmail := "a", authorDate := 200 + (k : Int), committerDate := 200 + (k : Int) })
    ++ [{ authorEmail := "a", authorDate := 86000, committerDate := 86000 }]

/-- A 29-entry plan with total 51, in the generator's contract range. -/
def plan51 : List Nat := [23] ++ List.replicate 28 1

/-- A 29-entry plan with total 60, the top of the generator's contract
range. -/
def plan60 : List Nat := [3, 3] ++ List.replicate 27 2

/-- A malformed 28-entry plan, as in the spec's end-to-end scenario B. -/
def plan28 : List Nat := List.replicate 28 2

theorem countQualUpTo_succ (logs : List Commit) (a : String) (di : Int)
    (j : Nat) :
    countQualUpTo logs a di (j + 1) =
      countQualUpTo logs a di j + (if qualifies logs a di (j + 1) then 1 else 0) := by
  unfold countQualUpTo
  rw [List.range_succ, List.filter_append, List.length_append]
  by_cases h : qualifies logs a di (j + 1) <;>
    simp [List.filter_singleton, h]

theorem countQualUpTo_le_succ (logs : List Commit) (a : String) (di : Int)
    (j : Nat) :
    countQualUpTo logs a di j ≤ countQualUpTo logs a di (j + 1) := by
  rw [countQualUpTo_succ]
  omega

/-- When the backward scan reports a hit, the visited prefix already holds at
least `51 - nb` qualifying commits: instantiated at `nb = 0`, a hit means at
least 51 qualifying commits, not 50. -/
theorem scan50_true_count (logs : List Commit) (a : String) (di : Int) :
    ∀ j nb, scan50 logs (some a) di j nb = true →
      51 ≤ nb + countQualUpTo logs a di j := by
  intro j
  induction j with
  | zero => intro nb h; simp [scan50] at h
  | succ j ih =>
    intro nb h
    rw [scan50] at h
    by_cases he : (logs.getD (j + 1) default).authorEmail = a
    · rw [if_pos he] at h
      by_cases hs : di - (logs.getD (j + 1) default).authorDate > streakSpan
      · rw [if_pos hs] at h
        exact absurd h (by simp)
      · rw [if_neg hs] at h
        have hq : qualifies logs a di (j + 1) :=
          ⟨Nat.succ_ne_zero j, he, le_of_not_lt hs⟩
        by_cases hc : 50 ≤ nb
        · rw [countQualUpTo_succ, if_pos hq]
          omega
        · rw [if_neg hc] at h
          have := ih (nb + 1) h
          rw [countQualUpTo_succ, if_pos hq]
          omega
    · rw [if_neg he] at h
      have := ih nb h
      have := countQualUpTo_le_succ logs a di j
      omega

/-- Characterization of a successful descending search: the returned index
is a scan hit above 50, within range, and every later candidate fails. -/
theorem find50From_some (logs : List Commit) (author : Option String) :
    ∀ k i, find50From logs author k = some i →
      50 < i ∧ i ≤ k ∧ scanHit logs author i = true ∧
      ∀ m, i < m → m ≤ k → scanHit logs author m = false := by
  intro k
  induction k with
  | zero => intro i h; simp [find50From] at h
  | succ k ih =>
    intro i h
    rw [find50From] at h
    by_cases hk : 50 < k + 1
    · rw [if_pos hk] at h
      by_cases hs : scan50 logs author ((logs.getD (k + 1) default).authorDate) k 0 = true
      · rw [if_pos hs] at h
        have hi : i = k + 1 := by
          simpa using h.symm
        subst hi
        refine ⟨hk, le_refl _, ?_, ?_⟩
        · unfold scanHit
          simpa using hs
        · intro m hm hm2
          omega
      · rw [if_neg hs] at h
        obtain ⟨h1, h2, h3, h4⟩ := ih i h
        refine ⟨h1, Nat.le_succ_of_le h2, h3, ?_⟩
        intro m hm hm2
        rcases Nat.lt_or_ge m (k + 1) with hlt | hge
        · exact h4 m hm (by omega)
        · have : m = k + 1 := by omega
          subst this
          unfold scanHit
          simpa using eq_false_of_ne_true hs
    · rw [if_neg hk] at h
      exact absurd h (by simp)

/-- Candidates stop at 51: a search started at or below 50 finds nothing. -/
theorem find50From_le_50 (logs : List Commit) (author : Option String)
    (k : Nat) (hk : k ≤ 50) : find50From logs author k = none := by
  cases k with
  | zero => rfl
  | succ k =>
    rw [find50From, if_neg (by omega)]

/-- The backward scan never reads record 0. -/
theorem scan50_set_zero (logs : List Commit) (author : Option String)
    (di : Int) (r : Commit) :
    ∀ j nb, scan50 (logs.set 0 r) author di j nb = scan50 logs author di j nb := by
  intro j
  induction j with
  | zero => intro nb; rfl
  | succ j ih =>
    intro nb
    have hget : (logs.set 0 r).getD (j + 1) default = logs.getD (j + 1) default := by
      rw [List.getD_eq_getElem?_getD, List.getD_eq_getElem?_getD,
        List.getElem?_set_ne (by omega)]
    cases author with
    | none => rw [scan50, scan50]; exact ih nb
    | some a =>
      rw [scan50, scan50, hget]
      by_cases he : (logs.getD (j + 1) default).authorEmail = a
      · rw [if_pos he, if_pos he]
        by_cases hs : di - (logs.getD (j + 1) default).authorDate > streakSpan
        · rw [if_pos hs, if_pos hs]
        · rw [if_neg hs, if_neg hs]
          by_cases hc : 50 ≤ nb
          · rw [if_pos hc, if_pos hc]
          · rw [if_neg hc, if_neg hc]
            exact ih (nb + 1)
      · rw [if_neg he, if_neg he]
        exact ih nb

/-- The whole search never reads record 0 (candidates stop at index 51). -/
theorem find50From_set_zero (logs : List Commit) (author : Option String)
    (r : Commit) :
    ∀ k, find50From (logs.set 0 r) author k = find50From logs author k := by
  intro k
  induction k with
  | zero => rfl
  | succ k ih =>
    rw [find50From, find50From]
    by_cases hk : 50 < k + 1
    · rw [if_pos hk, if_pos hk]
      have hget : (logs.set 0 r).getD (k + 1) default = logs.getD (k + 1) default := by
        rw [List.getD_eq_getElem?_getD, List.getD_eq_getElem?_getD,
          List.getElem?_set_ne (by omega)]
      rw [hget, scan50_set_zero]
      by_cases hs : scan50 logs author ((logs.getD (k + 1) default).authorDate) k 0 = true
      · rw [if_pos hs, if_pos hs]
      · rw [if_neg hs, if_neg hs]
        exact ih
    · rw [if_neg hk, if_neg hk]

/-- C1: with `author = none` the streak finder is claimed to count every
commit and return a valid index whenever 50 commits share a 29-day window.
The code does the opposite: the guard `author != None and ...` counts
nothing when `author` is `None`, so even 60 simultaneous commits yield the
sentinel. This theorem evaluates the code at that failing input. -/
theorem c1_noFilter_counts_nothing :
    c1Logs.length = 60 ∧ (∀ c ∈ c1Logs, c.authorDate = 1000) ∧
      find_50commits_month c1Logs none = none := by
  decide

/-- C2 counterexample: 52 simultaneous commits by one author give candidate
`i = 51` exactly 50 qualifying commits in its window, so the running count
reaches 50 during the backward scan; the claim then demands `51` be
returned, but the code returns the sentinel (it only returns on the 51st
qualifying commit). -/
theorem c2_counterexample :
    countQualifying c2Logs "alice" 51 = 50 ∧
      find_50commits_month c2Logs (some "alice") = none := by
  decide

/-- C2 (amended): the scan returns `i` only when it meets the 51st
qualifying commit, so a non-sentinel `i` has at least 51 (hence at least 50)
qualifying commits within `29 * 24 * 3600` seconds before commit `i`'s
author date, `i` exceeds 50, `i` is in range, and `i` is the latest-ending
such end commit: every later candidate's scan misses. -/
theorem find50_success_characterization (logs : List Commit) (a : String)
    (i : Nat) (h : find_50commits_month logs (some a) = some i) :
    50 < i ∧ i ≤ logs.length - 1 ∧ 51 ≤ countQualifying logs a i ∧
      ∀ m, i < m → m ≤ logs.length - 1 → scanHit logs (some a) m = false := by
  obtain ⟨h1, h2, h3, h4⟩ := find50From_some logs (some a) (logs.length - 1) i h
  refine ⟨h1, h2, ?_, h4⟩
  have h5 := scan50_true_count logs a ((logs.getD i default).authorDate) (i - 1) 0 h3
  unfold countQualifying
  omega

/-- Witness for the amended C2 at a concrete success. -/
theorem find50_success_characterization_witness :
    find_50commits_month c2wLogs (some "alice") = some 52 ∧
      51 ≤ countQualifying c2wLogs "alice" 52 :=
  ⟨by decide,
    (find50_success_characterization c2wLogs "alice" 52 (by decide)).2.2.1⟩

/-- C10: a non-sentinel result always lies in `[51, length - 1]`; any log of
at most 51 commits yields the sentinel because the candidate loop is empty;
and record 0 is never examined: rewriting it never changes the result. -/
theorem find50_range_and_ignores_record_zero (logs : List Commit)
    (author : Option String) :
    (logs.length ≤ 51 → find_50commits_month logs author = none) ∧
    (∀ i, find_50commits_month logs author = some i →
      51 ≤ i ∧ i ≤ logs.length - 1) ∧
    (∀ r, find_50commits_month (logs.set 0 r) author =
      find_50commits_month logs author) := by
  refine ⟨?_, ?_, ?_⟩
  · intro hlen
    exact find50From_le_50 logs author _ (by omega)
  · intro i h
    obtain ⟨h1, h2, _, _⟩ := find50From_some logs author _ i h
    exact ⟨h1, h2⟩
  · intro r
    unfold find_50commits_month
    rw [List.length_set, find50From_set_zero]

/-- Witness for C10 at concrete inputs. -/
theorem find50_range_and_ignores_record_zero_witness :
    find_50commits_month
        (List.replicate 51 ({ authorEmail := "b", authorDate := 5, committerDate := 5 } : Commit))
        none = none ∧
      find_50commits_month
        ((List.replicate 53 ({ authorEmail := "b", authorDate := 5, committerDate := 5 } : Commit)).set 0
          ({ authorEmail := "c", authorDate := 9, committerDate := 9 } : Commit))
        (some "b") =
      find_50commits_month
        (List.replicate 53 ({ authorEmail := "b", authorDate := 5, committerDate := 5 } : Commit))
        (some "b") :=
  ⟨(find50_range_and_ignores_record_zero _ none).1 (by decide),
    (find50_range_and_ignores_record_zero _ (some "b")).2.2 _⟩

theorem timeOfDay_nonneg (t : Int) : 0 ≤ timeOfDay t :=
  Int.emod_nonneg t (by norm_num)

theorem timeOfDay_lt (t : Int) : timeOfDay t < 86400 :=
  Int.emod_lt_of_pos t (by norm_num)

/-- The running minimum of the envelope fold never increases and ends at or
below every visited time of day. -/
theorem env_fold_min (l : List Commit) :
    ∀ p : Int × Int, (l.foldl envStep p).1 ≤ p.1 ∧
      ∀ c ∈ l, (l.foldl envStep p).1 ≤ timeOfDay c.authorDate := by
  induction l with
  | nil => intro p; exact ⟨le_refl _, by simp⟩
  | cons c0 l ih =>
    intro p
    rw [List.foldl_cons]
    obtain ⟨ha, hb⟩ := ih (envStep p c0)
    have hstep1 : (envStep p c0).1 ≤ p.1 := by
      simp only [envStep]
      split <;> omega
    have hstep2 : (envStep p c0).1 ≤ timeOfDay c0.authorDate := by
      simp only [envStep]
      split <;> omega
    refine ⟨le_trans ha hstep1, ?_⟩
    intro c hc
    rcases List.mem_cons.mp hc with rfl | hc
    · exact le_trans ha hstep2
    · exact hb c hc

/-- The running maximum of the envelope fold never decreases and ends at or
above every visited time of day. -/
theorem env_fold_max (l : List Commit) :
    ∀ p : Int × Int, p.2 ≤ (l.foldl envStep p).2 ∧
      ∀ c ∈ l, timeOfDay c.authorDate ≤ (l.foldl envStep p).2 := by
  induction l with
  | nil => intro p; exact ⟨le_refl _, by simp⟩
  | cons c0 l ih =>
    intro p
    rw [List.foldl_cons]
    obtain ⟨ha, hb⟩ := ih (envStep p c0)
    have hstep1 : p.2 ≤ (envStep p c0).2 := by
      simp only [envStep]
      split <;> omega
    have hstep2 : timeOfDay c0.authorDate ≤ (envStep p c0).2 := by
      simp only [envStep]
      split <;> omega
    refine ⟨le_trans hstep1 ha, ?_⟩
    intro c hc
    rcases List.mem_cons.mp hc with rfl | hc
    · exact le_trans hstep2 ha
    · exact hb c hc

/-- The final minimum is the initial value or some visited time of day. -/
theorem env_fold_min_attained (l : List Commit) :
    ∀ p : Int × Int, (l.foldl envStep p).1 = p.1 ∨
      ∃ c ∈ l, (l.foldl envStep p).1 = timeOfDay c.authorDate := by
  induction l with
  | nil => intro p; exact Or.inl rfl
  | cons c0 l ih =>
    intro p
    rw [List.foldl_cons]
    rcases ih (envStep p c0) with h | ⟨c, hc, h⟩
    · by_cases hlt : timeOfDay c0.authorDate < p.1
      · exact Or.inr ⟨c0, List.mem_cons_self c0 l, by rw [h]; simp [envStep, hlt]⟩
      · exact Or.inl (by rw [h]; simp [envStep, hlt])
    · exact Or.inr ⟨c, List.mem_cons_of_mem c0 hc, h⟩

/-- The final maximum is the initial value or some visited time of day. -/
theorem env_fold_max_attained (l : List Commit) :
    ∀ p : Int × Int, (l.foldl envStep p).2 = p.2 ∨
      ∃ c ∈ l, (l.foldl envStep p).2 = timeOfDay c.authorDate := by
  induction l with
  | nil => intro p; exact Or.inl rfl
  | cons c0 l ih =>
    intro p
    rw [List.foldl_cons]
    rcases ih (envStep p c0) with h | ⟨c, hc, h⟩
    · by_cases hlt : p.2 < timeOfDay c0.authorDate
      · exact Or.inr ⟨c0, List.mem_cons_self c0 l, by rw [h]; simp [envStep, hlt]⟩
      · exact Or.inl (by rw [h]; simp [envStep, hlt])
    · exact Or.inr ⟨c, List.mem_cons_of_mem c0 hc, h⟩

/-- On a nonempty slice the computed minimum is a visited time of day. -/
theorem envelope_min_mem (logs : List Commit) (h : logs ≠ []) :
    ∃ c ∈ logs, (compute_commit_time_period logs).1 = timeOfDay c.authorDate := by
  rcases env_fold_min_attained logs (3600 * 24, 0) with h0 | h0
  · obtain ⟨c0, hc0⟩ := List.exists_mem_of_ne_nil logs h
    have := (env_fold_min logs (3600 * 24, 0)).2 c0 hc0
    have := timeOfDay_lt c0.authorDate
    unfold compute_commit_time_period at *
    omega
  · exact h0

/-- On a nonempty slice the computed maximum is a visited time of day. -/
theorem envelope_max_mem (logs : List Commit) (h : logs ≠ []) :
    ∃ c ∈ logs, (compute_commit_time_period logs).2 = timeOfDay c.authorDate := by
  rcases env_fold_max_attained logs (3600 * 24, 0) with h0 | h0
  · obtain ⟨c0, hc0⟩ := List.exists_mem_of_ne_nil logs h
    have h1 := (env_fold_max logs (3600 * 24, 0)).2 c0 hc0
    have h2 := timeOfDay_nonneg c0.authorDate
    refine ⟨c0, hc0, ?_⟩
    unfold compute_commit_time_period at *
    omega
  · exact h0

/-- On a nonempty slice the envelope is an honest sub-interval of the day:
`0 ≤ min ≤ max < 86400`. -/
theorem envelope_sane (logs : List Commit) (h : logs ≠ []) :
    0 ≤ (compute_commit_time_period logs).1 ∧
      (compute_commit_time_period logs).1 ≤ (compute_commit_time_period logs).2 ∧
      (compute_commit_time_period logs).2 < 86400 := by
  obtain ⟨cmin, hmin, hminEq⟩ := envelope_min_mem logs h
  obtain ⟨cmax, hmax, hmaxEq⟩ := envelope_max_mem logs h
  have h1 := timeOfDay_nonneg cmin.authorDate
  have h2 := timeOfDay_lt cmax.authorDate
  have h3 := (env_fold_min logs (3600 * 24, 0)).2 cmax hmax
  unfold compute_commit_time_period at *
  omega

/-- C9: for every nonempty slice the envelope estimator returns a pair
`(min, max)` with `min` at or below and `max` at or above every observed
time of day, both values observed on some commit of the slice; on a
single-commit slice both equal that commit's time of day. -/
theorem envelope_bounds (logs : List Commit) (h : logs ≠ []) :
    (∀ c ∈ logs,
      (compute_commit_time_period logs).1 ≤ timeOfDay c.authorDate ∧
      timeOfDay c.authorDate ≤ (compute_commit_time_period logs).2) ∧
    (∃ c ∈ logs, (compute_commit_time_period logs).1 = timeOfDay c.authorDate) ∧
    (∃ c ∈ logs, (compute_commit_time_period logs).2 = timeOfDay c.authorDate) ∧
    ∀ c, logs = [c] →
      compute_commit_time_period logs =
        (timeOfDay c.authorDate, timeOfDay c.authorDate) := by
  refine ⟨?_, envelope_min_mem logs h, envelope_max_mem logs h, ?_⟩
  · intro c hc
    exact ⟨(env_fold_min logs (3600 * 24, 0)).2 c hc,
      (env_fold_max logs (3600 * 24, 0)).2 c hc⟩
  · intro c hc
    subst hc
    have h1 := timeOfDay_nonneg c.authorDate
    have h2 := timeOfDay_lt c.authorDate
    unfold compute_commit_time_period
    rw [List.foldl_cons, List.foldl_nil]
    simp only [envStep, Prod.mk.injEq]
    constructor
    · split <;> omega
    · split <;> omega

/-- Witness for C9 on a one-commit slice: timestamp 86500 has time of day
100 and the envelope collapses onto it. -/
theorem envelope_bounds_witness :
    compute_commit_time_period
        [({ authorEmail := "x", authorDate := 86500, committerDate := 86500 } : Commit)] =
      (100, 100) :=
  ((envelope_bounds _ (by decide)).2.2.2 _ rfl).trans (by decide)

theorem applyTimestamps_length :
    ∀ (l : List Commit) (s : Nat) (ts : List Int),
      (applyTimestamps l s ts).length = l.length := by
  intro l
  induction l with
  | nil => intro s ts; cases s <;> cases ts <;> rfl
  | cons c cs ih =>
    intro s ts
    cases s with
    | zero =>
      cases ts with
      | nil => rfl
      | cons t ts2 => simp [applyTimestamps, ih]
    | succ s2 =>
      cases ts with
      | nil => rfl
      | cons t ts2 => simp [applyTimestamps, ih]

/-- Records before the window start are untouched. -/
theorem applyTimestamps_getD_lt :
    ∀ (l : List Commit) (s : Nat) (ts : List Int) (k : Nat), k < s →
      (applyTimestamps l s ts).getD k default = l.getD k default := by
  intro l
  induction l with
  | nil => intro s ts k _; cases s <;> cases ts <;> rfl
  | cons c cs ih =>
    intro s ts k hk
    cases s with
    | zero => omega
    | succ s2 =>
      cases ts with
      | nil => rfl
      | cons t ts2 =>
        cases k with
        | zero => rfl
        | succ k2 =>
          simp only [applyTimestamps, List.getD_cons_succ]
          exact ih s2 (t :: ts2) k2 (by omega)

/-- Records past the written window are untouched. -/
theorem applyTimestamps_getD_ge :
    ∀ (l : List Commit) (s : Nat) (ts : List Int) (k : Nat),
      s + ts.length ≤ k →
      (applyTimestamps l s ts).getD k default = l.getD k default := by
  intro l
  induction l with
  | nil => intro s ts k _; cases s <;> cases ts <;> rfl
  | cons c cs ih =>
    intro s ts k hk
    cases s with
    | zero =>
      cases ts with
      | nil => rfl
      | cons t ts2 =>
        cases k with
        | zero => simp at hk
        | succ k2 =>
          simp only [applyTimestamps, List.getD_cons_succ]
          exact ih 0 ts2 k2 (by simp at hk; omega)
    | succ s2 =>
      cases ts with
      | nil => rfl
      | cons t ts2 =>
        cases k with
        | zero => omega
        | succ k2 =>
          simp only [applyTimestamps, List.getD_cons_succ]
          exact ih s2 (t :: ts2) k2 (by simp at hk ⊢; omega)

/-- Record `s + m` of the window becomes the original record with both date
fields replaced by timestamp `m` of the assignment order. -/
theorem applyTimestamps_getD_window :
    ∀ (l : List Commit) (s : Nat) (ts : List Int) (k : Nat),
      s ≤ k → k - s < ts.length → k < l.length →
      (applyTimestamps l s ts).getD k default =
        { l.getD k default with
            authorDate := ts.getD (k - s) 0,
            committerDate := ts.getD (k - s) 0 } := by
  intro l
  induction l with
  | nil => intro s ts k _ _ h; simp at h
  | cons c cs ih =>
    intro s ts k hs hw hl
    cases s with
    | zero =>
      cases ts with
      | nil => simp at hw
      | cons t ts2 =>
        cases k with
        | zero => rfl
        | succ k2 =>
          simp only [applyTimestamps, List.getD_cons_succ, Nat.sub_zero]
          have := ih 0 ts2 k2 (Nat.zero_le k2) (by simp at hw; omega)
            (by simp at hl; omega)
          simpa using this
    | succ s2 =>
      cases ts with
      | nil => simp at hw
      | cons t ts2 =>
        cases k with
        | zero => omega
        | succ k2 =>
          simp only [applyTimestamps, List.getD_cons_succ, Nat.succ_sub_succ]
          exact ih s2 (t :: ts2) k2 (by omega) (by omega) (by simp at hl; omega)

/-- Read back: the author dates of the rewritten window are exactly the
assigned timestamps, in order. -/
theorem applyTimestamps_window_map :
    ∀ (l : List Commit) (s : Nat) (ts : List Int), s + ts.length ≤ l.length →
      (((applyTimestamps l s ts).drop s).take ts.length).map
        (fun c => c.authorDate) = ts := by
  intro l
  induction l with
  | nil =>
    intro s ts h
    cases ts with
    | nil => cases s <;> rfl
    | cons t ts2 => simp at h
  | cons c cs ih =>
    intro s ts h
    cases s with
    | zero =>
      cases ts with
      | nil => rfl
      | cons t ts2 =>
        simp only [applyTimestamps, List.drop_zero, List.length_cons,
          List.take_succ_cons, List.map_cons]
        have := ih 0 ts2 (by simp at h ⊢; omega)
        simp only [List.drop_zero] at this
        rw [this]
    | succ s2 =>
      cases ts with
      | nil => simp
      | cons t ts2 =>
        simp only [applyTimestamps, List.drop_succ_cons]
        exact ih s2 (t :: ts2) (by simp at h ⊢; omega)

theorem midnight_emod (t : Int) : midnight t % 86400 = 0 := by
  unfold midnight
  have h := Int.ediv_add_emod t 86400
  have h2 : t - t % 86400 = 86400 * (t / 86400) := by omega
  rw [h2]
  exact Int.mul_emod_right _ _

theorem calDay_midnight (t : Int) : calDay (midnight t) = calDay t := by
  unfold calDay
  rw [midnight_emod t]
  unfold midnight
  rw [Int.sub_zero]

/-- Day and time of day of a synthetic timestamp: midnight base plus `m`
whole days plus an in-day offset. -/
theorem shift_day_time (sd ct : Int) (m : Nat) (hsd : sd % 86400 = 0)
    (h0 : 0 ≤ ct) (h1 : ct < 86400) :
    timeOfDay (sd + (m : Int) * 86400 + ct) = ct ∧
      calDay (sd + (m : Int) * 86400 + ct) = calDay sd + m := by
  obtain ⟨q, hq⟩ : (86400 : Int) ∣ sd := Int.dvd_of_emod_eq_zero hsd
  subst hq
  have e1 : 86400 * q + (m : Int) * 86400 + ct = ct + (q + (m : Int)) * 86400 := by
    ring
  have hmod : (86400 * q + (m : Int) * 86400 + ct) % 86400 = ct := by
    rw [e1, Int.add_mul_emod_self, Int.emod_eq_of_lt h0 h1]
  constructor
  · exact hmod
  · unfold calDay
    rw [hmod, Int.mul_emod_right]
    have e2 : 86400 * q + (m : Int) * 86400 + ct - ct = 86400 * (q + (m : Int)) := by
      ring
    rw [e2, Int.mul_ediv_cancel_left _ (by norm_num), Int.sub_zero,
      Int.mul_ediv_cancel_left _ (by norm_num)]

theorem startCommit_toNat (n : Nat) (plan : List Nat) :
    (startCommit n plan).toNat = n + 1 - plan.sum := by
  unfold startCommit
  omega

/-- A well-formed plan always takes the `Except.ok` branch, with the window
start, envelope and day-zero midnight spelled out. -/
theorem redistribute_commits_ok (logs : List Commit) (n : Nat)
    (plan : List Nat) (rand : Nat → Nat → Int → Int → Int)
    (h29 : plan.length = 29) :
    redistribute_commits logs n plan rand =
      Except.ok (applyTimestamps logs (n + 1 - plan.sum)
        (planTimestamps
          (midnight ((logs.getD (n + 1 - plan.sum) default).authorDate))
          (redistributeEnvelope logs n (n + 1 - plan.sum)).1
          (redistributeEnvelope logs n (n + 1 - plan.sum)).2 rand plan)) := by
  unfold redistribute_commits
  rw [if_neg (by omega), startCommit_toNat]

/-- The list left by a well-formed pass, in closed form. -/
theorem redistributed_eq (logs : List Commit) (n : Nat) (plan : List Nat)
    (rand : Nat → Nat → Int → Int → Int) (h29 : plan.length = 29) :
    redistributed logs n plan rand =
      applyTimestamps logs (n + 1 - plan.sum)
        (planTimestamps
          (midnight ((logs.getD (n + 1 - plan.sum) default).authorDate))
          (redistributeEnvelope logs n (n + 1 - plan.sum)).1
          (redistributeEnvelope logs n (n + 1 - plan.sum)).2 rand plan) := by
  unfold redistributed
  rw [redistribute_commits_ok logs n plan rand h29]

/-- The assignment loop emits one timestamp per planned commit. -/
theorem planTimestampsFrom_length (sd lo hi : Int)
    (rand : Nat → Nat → Int → Int → Int) :
    ∀ (plan : List Nat) (d : Nat),
      (planTimestampsFrom sd lo hi rand d plan).length = plan.sum := by
  intro plan
  induction plan with
  | nil => intro d; rfl
  | cons n rest ih =>
    intro d
    simp [planTimestampsFrom, ih]

/-- Every emitted timestamp keeps its draw as time of day and lands on one
of the plan's days, counted from the base day. -/
theorem planTimestampsFrom_mem (sd lo hi : Int)
    (rand : Nat → Nat → Int → Int → Int) (hsd : sd % 86400 = 0)
    (hlo : 0 ≤ lo) (hhi : hi < 86400)
    (hrand : ∀ d i, lo ≤ rand d i lo hi ∧ rand d i lo hi ≤ hi) :
    ∀ (plan : List Nat) (d : Nat) (t : Int),
      t ∈ planTimestampsFrom sd lo hi rand d plan →
      lo ≤ timeOfDay t ∧ timeOfDay t ≤ hi ∧
        calDay sd + d ≤ calDay t ∧
        calDay t < calDay sd + d + plan.length := by
  intro plan
  induction plan with
  | nil => intro d t ht; simp [planTimestampsFrom] at ht
  | cons n rest ih =>
    intro d t ht
    rw [planTimestampsFrom] at ht
    rcases List.mem_append.mp ht with h | h
    · obtain ⟨i, _, rfl⟩ := List.mem_map.mp h
      have hr := hrand d i
      obtain ⟨ht1, ht2⟩ := shift_day_time sd (rand d i lo hi) d hsd
        (le_trans hlo hr.1) (lt_of_le_of_lt hr.2 hhi)
      rw [ht1, ht2]
      refine ⟨hr.1, hr.2, le_refl _, ?_⟩
      simp only [List.length_cons]
      push_cast
      omega
    · obtain ⟨h1, h2, h3, h4⟩ := ih (d + 1) t h
      refine ⟨h1, h2, ?_, ?_⟩ <;> · simp only [List.length_cons] at *; push_cast at *; omega

/-- The number of emitted timestamps landing on day `k` of the plan equals
the plan's `k`-th entry. -/
theorem planTimestampsFrom_countDay (sd lo hi : Int)
    (rand : Nat → Nat → Int → Int → Int) (hsd : sd % 86400 = 0)
    (hlo : 0 ≤ lo) (hhi : hi < 86400)
    (hrand : ∀ d i, lo ≤ rand d i lo hi ∧ rand d i lo hi ≤ hi) :
    ∀ (plan : List Nat) (d k : Nat) (D : Int), k < plan.length →
      D = calDay sd + d + k →
      (planTimestampsFrom sd lo hi rand d plan).countP
        (fun t => decide (calDay t = D)) = plan.getD k 0 := by
  intro plan
  induction plan with
  | nil => intro d k D hk _; simp at hk
  | cons n rest ih =>
    intro d k D hk hD
    rw [planTimestampsFrom, List.countP_append]
    have hmapEq : ∀ t ∈ (List.range n).map
        (fun i => sd + (d : Int) * 86400 + rand d i lo hi),
        calDay t = calDay sd + d := by
      intro t ht
      obtain ⟨i, _, rfl⟩ := List.mem_map.mp ht
      exact (shift_day_time sd (rand d i lo hi) d hsd
        (le_trans hlo (hrand d i).1) (lt_of_le_of_lt (hrand d i).2 hhi)).2
    cases k with
    | zero =>
      have hD0 : D = calDay sd + d := by rw [hD]; push_cast; ring
      have hc1 : ((List.range n).map
          (fun i => sd + (d : Int) * 86400 + rand d i lo hi)).countP
          (fun t => decide (calDay t = D)) = n := by
        rw [List.countP_eq_length.mpr ?_]
        · simp
        · intro t ht
          simp only [decide_eq_true_eq]
          rw [hmapEq t ht, hD0]
      have hc2 : (planTimestampsFrom sd lo hi rand (d + 1) rest).countP
          (fun t => decide (calDay t = D)) = 0 := by
        rw [List.countP_eq_zero.mpr ?_]
        intro t ht
        have := (planTimestampsFrom_mem sd lo hi rand hsd hlo hhi hrand
          rest (d + 1) t ht).2.2.1
        simp only [decide_eq_true_eq]
        push_cast at *
        omega
      rw [hc1, hc2]
      simp
    | succ k2 =>
      have hc1 : ((List.range n).map
          (fun i => sd + (d : Int) * 86400 + rand d i lo hi)).countP
          (fun t => decide (calDay t = D)) = 0 := by
        rw [List.countP_eq_zero.mpr ?_]
        intro t ht
        rw [hmapEq t ht] at *
        simp only [decide_eq_true_eq]
        rw [hD]
        push_cast
        omega
      have hc2 := ih (d + 1) k2 D (by simp at hk; omega)
        (by rw [hD]; push_cast; ring)
      rw [hc1, hc2]
      simp

/-- Lists whose elements all share one calendar day are trivially pairwise
day-monotone. -/
theorem pairwise_calDay_const (C : Int) :
    ∀ l : List Int, (∀ t ∈ l, calDay t = C) →
      List.Pairwise (fun t u => calDay t ≤ calDay u) l := by
  intro l
  induction l with
  | nil => intro; exact List.Pairwise.nil
  | cons t l2 ih =>
    intro h
    constructor
    · intro u hu
      rw [h t (List.mem_cons_self t l2), h u (List.mem_cons_of_mem t hu)]
    · exact ih fun u hu => h u (List.mem_cons_of_mem t hu)

/-- The emitted timestamps are day-monotone in assignment order: later
assignments never land on an earlier calendar day. -/
theorem planTimestampsFrom_pairwise (sd lo hi : Int)
    (rand : Nat → Nat → Int → Int → Int) (hsd : sd % 86400 = 0)
    (hlo : 0 ≤ lo) (hhi : hi < 86400)
    (hrand : ∀ d i, lo ≤ rand d i lo hi ∧ rand d i lo hi ≤ hi) :
    ∀ (plan : List Nat) (d : Nat),
      List.Pairwise (fun t u => calDay t ≤ calDay u)
        (planTimestampsFrom sd lo hi rand d plan) := by
  intro plan
  induction plan with
  | nil => intro d; exact List.Pairwise.nil
  | cons n rest ih =>
    intro d
    rw [planTimestampsFrom]
    apply List.pairwise_append.mpr
    have hmapEq : ∀ t ∈ (List.range n).map
        (fun i => sd + (d : Int) * 86400 + rand d i lo hi),
        calDay t = calDay sd + d := by
      intro t ht
      obtain ⟨i, _, rfl⟩ := List.mem_map.mp ht
      exact (shift_day_time sd (rand d i lo hi) d hsd
        (le_trans hlo (hrand d i).1) (lt_of_le_of_lt (hrand d i).2 hhi)).2
    refine ⟨pairwise_calDay_const (calDay sd + d) _ hmapEq, ih (d + 1), ?_⟩
    intro a ha b hb
    have h1 := hmapEq a ha
    have h2 := (planTimestampsFrom_mem sd lo hi rand hsd hlo hhi hrand
      rest (d + 1) b hb).2.2.1
    push_cast at *
    omega

/-- The envelope slice `logs[start : num_commit]` is nonempty whenever the
window holds at least two commits and the anchor is in range. -/
theorem redistributeEnvelope_sane (logs : List Commit) (num start : Nat)
    (h1 : start < num) (h2 : num < logs.length) :
    0 ≤ (redistributeEnvelope logs num start).1 ∧
      (redistributeEnvelope logs num start).1 ≤
        (redistributeEnvelope logs num start).2 ∧
      (redistributeEnvelope logs num start).2 < 86400 := by
  unfold redistributeEnvelope
  apply envelope_sane
  apply List.length_pos.mp
  rw [List.length_take, List.length_drop]
  omega

theorem getD_mem_of_lt (l : List Int) (n : Nat) (h : n < l.length) :
    l.getD n 0 ∈ l := by
  rw [List.getD_eq_getElem l 0 h]
  exact List.getElem_mem h

/-- Every record of the rewritten window carries one synthetic timestamp on
both date fields, with its time of day inside `[lo, hi]` and its calendar
day among the plan's days. -/
theorem applyWindow_facts (logs : List Commit) (s : Nat) (sd lo hi : Int)
    (rand : Nat → Nat → Int → Int → Int) (plan : List Nat)
    (hsd : sd % 86400 = 0) (hlo : 0 ≤ lo) (hhi : hi < 86400)
    (hrand : ∀ d i, lo ≤ rand d i lo hi ∧ rand d i lo hi ≤ hi)
    (hlen : s + plan.sum ≤ logs.length) :
    ∀ k, s ≤ k → k < s + plan.sum →
      (((applyTimestamps logs s (planTimestamps sd lo hi rand plan)).getD k
          default).authorDate =
        ((applyTimestamps logs s (planTimestamps sd lo hi rand plan)).getD k
          default).committerDate) ∧
      lo ≤ timeOfDay (((applyTimestamps logs s
        (planTimestamps sd lo hi rand plan)).getD k default).authorDate) ∧
      timeOfDay (((applyTimestamps logs s
        (planTimestamps sd lo hi rand plan)).getD k default).authorDate) ≤ hi ∧
      calDay sd ≤ calDay (((applyTimestamps logs s
        (planTimestamps sd lo hi rand plan)).getD k default).authorDate) ∧
      calDay (((applyTimestamps logs s
        (planTimestamps sd lo hi rand plan)).getD k default).authorDate) <
        calDay sd + plan.length := by
  intro k hk1 hk2
  have hts := planTimestampsFrom_length sd lo hi rand plan 0
  have hw := applyTimestamps_getD_window logs s
    (planTimestamps sd lo hi rand plan) k hk1
    (by unfold planTimestamps; rw [hts]; omega) (by omega)
  rw [hw]
  dsimp only
  have hmem : (planTimestamps sd lo hi rand plan).getD (k - s) 0 ∈
      planTimestamps sd lo hi rand plan :=
    getD_mem_of_lt _ _ (by unfold planTimestamps; rw [hts]; omega)
  have hfacts := planTimestampsFrom_mem sd lo hi rand hsd hlo hhi hrand
    plan 0 _ hmem
  refine ⟨rfl, hfacts.1, hfacts.2.1, ?_, ?_⟩
  · have := hfacts.2.2.1
    push_cast at this
    omega
  · have := hfacts.2.2.2
    push_cast at this ⊢
    omega

/-- The rewritten window holds exactly `plan[k]` records on day `k` of the
synthetic 29-day span. -/
theorem applyWindow_count (logs : List Commit) (s : Nat) (sd lo hi : Int)
    (rand : Nat → Nat → Int → Int → Int) (plan : List Nat)
    (hsd : sd % 86400 = 0) (hlo : 0 ≤ lo) (hhi : hi < 86400)
    (hrand : ∀ d i, lo ≤ rand d i lo hi ∧ rand d i lo hi ≤ hi)
    (hlen : s + plan.sum ≤ logs.length) (k : Nat) (hk : k < plan.length)
    (D : Int) (hD : D = calDay sd + k) :
    ((((applyTimestamps logs s (planTimestamps sd lo hi rand plan)).drop s).take
        plan.sum).countP
      (fun c => decide (calDay c.authorDate = D))) = plan.getD k 0 := by
  have hts := planTimestampsFrom_length sd lo hi rand plan 0
  have hmap := applyTimestamps_window_map logs s
    (planTimestamps sd lo hi rand plan)
    (by unfold planTimestamps; rw [hts]; omega)
  have hcount := planTimestampsFrom_countDay sd lo hi rand hsd hlo hhi hrand
    plan 0 k D hk (by rw [hD]; push_cast; ring)
  rw [show plan.sum = (planTimestamps sd lo hi rand plan).length by
    unfold planTimestamps; rw [hts]]
  unfold planTimestamps at hmap hcount ⊢
  rw [← hmap, List.countP_map] at hcount
  simpa [Function.comp] using hcount

/-- Window order never goes back a calendar day: rewritten record `k1`
sits on a day at or before rewritten record `k2`'s for `k1 ≤ k2`. -/
theorem applyWindow_monotone (logs : List Commit) (s : Nat) (sd lo hi : Int)
    (rand : Nat → Nat → Int → Int → Int) (plan : List Nat)
    (hsd : sd % 86400 = 0) (hlo : 0 ≤ lo) (hhi : hi < 86400)
    (hrand : ∀ d i, lo ≤ rand d i lo hi ∧ rand d i lo hi ≤ hi)
    (hlen : s + plan.sum ≤ logs.length) :
    ∀ k1 k2, s ≤ k1 → k1 ≤ k2 → k2 < s + plan.sum →
      calDay (((applyTimestamps logs s
        (planTimestamps sd lo hi rand plan)).getD k1 default).authorDate) ≤
      calDay (((applyTimestamps logs s
        (planTimestamps sd lo hi rand plan)).getD k2 default).authorDate) := by
  intro k1 k2 h1 h12 h2
  have hts := planTimestampsFrom_length sd lo hi rand plan 0
  have hm1 : k1 - s < (planTimestamps sd lo hi rand plan).length := by
    unfold planTimestamps; rw [hts]; omega
  have hm2 : k2 - s < (planTimestamps sd lo hi rand plan).length := by
    unfold planTimestamps; rw [hts]; omega
  have hw1 := applyTimestamps_getD_window logs s
    (planTimestamps sd lo hi rand plan) k1 h1 hm1 (by omega)
  have hw2 := applyTimestamps_getD_window logs s
    (planTimestamps sd lo hi rand plan) k2 (le_trans h1 h12) hm2 (by omega)
  rw [hw1, hw2]
  dsimp only
  rcases eq_or_lt_of_le h12 with rfl | hlt
  · exact le_refl _
  · have hp := planTimestampsFrom_pairwise sd lo hi rand hsd hlo hhi hrand plan 0
    rw [List.pairwise_iff_getElem] at hp
    have := hp (k1 - s) (k2 - s) hm1 hm2 (by omega)
    rw [List.getD_eq_getElem _ 0 hm1, List.getD_eq_getElem _ 0 hm2]
    exact this

/-- C3: after a pass with a 29-entry plan that fits the sequence, every
rewritten record has equal author and committer dates, lies within the 29
consecutive calendar days starting at the original day of the window's
first commit, keeps its time of day inside the computed envelope, and each
synthetic day `d` holds exactly `plan[d]` records. -/
theorem redistribute_window_shape (logs : List Commit) (num : Nat)
    (plan : List Nat) (rand : Nat → Nat → Int → Int → Int)
    (h29 : plan.length = 29) (h2 : 2 ≤ plan.sum)
    (hfit : plan.sum ≤ num + 1) (hnum : num < logs.length)
    (hrand : ∀ d i lo hi, lo ≤ hi →
      lo ≤ rand d i lo hi ∧ rand d i lo hi ≤ hi) :
    (∀ k, num + 1 - plan.sum ≤ k → k ≤ num →
      (((redistributed logs num plan rand).getD k default).authorDate =
        ((redistributed logs num plan rand).getD k default).committerDate) ∧
      calDay ((logs.getD (num + 1 - plan.sum) default).authorDate) ≤
        calDay (((redistributed logs num plan rand).getD k default).authorDate) ∧
      calDay (((redistributed logs num plan rand).getD k default).authorDate) ≤
        calDay ((logs.getD (num + 1 - plan.sum) default).authorDate) + 28 ∧
      (redistributeEnvelope logs num (num + 1 - plan.sum)).1 ≤
        timeOfDay (((redistributed logs num plan rand).getD k default).authorDate) ∧
      timeOfDay (((redistributed logs num plan rand).getD k default).authorDate) ≤
        (redistributeEnvelope logs num (num + 1 - plan.sum)).2) ∧
    ∀ d : Nat, d < 29 →
      ((((redistributed logs num plan rand).drop (num + 1 - plan.sum)).take
          plan.sum).countP
        (fun c => decide (calDay c.authorDate =
          calDay ((logs.getD (num + 1 - plan.sum) default).authorDate) + d))) =
      plan.getD d 0 := by
  have hred := redistributed_eq logs num plan rand h29
  have hsane := redistributeEnvelope_sane logs num (num + 1 - plan.sum)
    (by omega) hnum
  have hrand2 : ∀ d i,
      (redistributeEnvelope logs num (num + 1 - plan.sum)).1 ≤
        rand d i (redistributeEnvelope logs num (num + 1 - plan.sum)).1
          (redistributeEnvelope logs num (num + 1 - plan.sum)).2 ∧
      rand d i (redistributeEnvelope logs num (num + 1 - plan.sum)).1
          (redistributeEnvelope logs num (num + 1 - plan.sum)).2 ≤
        (redistributeEnvelope logs num (num + 1 - plan.sum)).2 :=
    fun d i => hrand d i _ _ hsane.2.1
  have hsd := midnight_emod ((logs.getD (num + 1 - plan.sum) default).authorDate)
  have hcal := calDay_midnight ((logs.getD (num + 1 - plan.sum) default).authorDate)
  constructor
  · intro k hk1 hk2
    have hfacts := applyWindow_facts logs (num + 1 - plan.sum)
      (midnight ((logs.getD (num + 1 - plan.sum) default).authorDate))
      (redistributeEnvelope logs num (num + 1 - plan.sum)).1
      (redistributeEnvelope logs num (num + 1 - plan.sum)).2
      rand plan hsd hsane.1 hsane.2.2 hrand2 (by omega) k hk1 (by omega)
    rw [hcal, h29] at hfacts
    rw [hred]
    obtain ⟨e1, e2, e3, e4, e5⟩ := hfacts
    refine ⟨e1, e4, ?_, e2, e3⟩
    push_cast at e5
    omega
  · intro d hd
    rw [hred]
    exact applyWindow_count logs (num + 1 - plan.sum)
      (midnight ((logs.getD (num + 1 - plan.sum) default).authorDate))
      (redistributeEnvelope logs num (num + 1 - plan.sum)).1
      (redistributeEnvelope logs num (num + 1 - plan.sum)).2
      rand plan hsd hsane.1 hsane.2.2 hrand2 (by omega) d (by omega)
      _ (by rw [hcal])

/-- Witness for C3: 58 one-day commits squashed by a two-per-day plan; the
first rewritten record has equal dates and synthetic day 0 holds exactly
two records. -/
theorem redistribute_window_shape_witness :
    (((redistributed logs58 57 plan29x2 randLo).getD 0 default).authorDate =
      ((redistributed logs58 57 plan29x2 randLo).getD 0 default).committerDate) ∧
    ((((redistributed logs58 57 plan29x2 randLo).drop (57 + 1 - plan29x2.sum)).take
        plan29x2.sum).countP
      (fun c => decide (calDay c.authorDate =
        calDay ((logs58.getD (57 + 1 - plan29x2.sum) default).authorDate) + 0))) = 2 :=
  ⟨((redistribute_window_shape logs58 57 plan29x2 randLo (by decide) (by decide)
      (by decide) (by decide) (fun d i lo hi h => ⟨le_refl lo, h⟩)).1 0
      (by decide) (by decide)).1,
    ((redistribute_window_shape logs58 57 plan29x2 randLo (by decide) (by decide)
      (by decide) (by decide) (fun d i lo hi h => ⟨le_refl lo, h⟩)).2 0
      (by decide)).trans (by decide)⟩

/-- C4: a fitting 29-entry plan rewrites exactly the `plan.sum` records of
the trailing window ending at the anchor: the sequence keeps its length,
records before the window and after the anchor are untouched, no author
identity changes anywhere, and each window record differs from the original
only in its two date fields (set to one common value). -/
theorem redistribute_frame (logs : List Commit) (num : Nat) (plan : List Nat)
    (rand : Nat → Nat → Int → Int → Int) (h29 : plan.length = 29)
    (hfit : plan.sum ≤ num + 1) (hnum : num < logs.length) :
    redistribute_commits logs num plan rand =
      Except.ok (redistributed logs num plan rand) ∧
    (redistributed logs num plan rand).length = logs.length ∧
    (∀ k, k < num + 1 - plan.sum →
      (redistributed logs num plan rand).getD k default = logs.getD k default) ∧
    (∀ k, num < k →
      (redistributed logs num plan rand).getD k default = logs.getD k default) ∧
    (∀ k, ((redistributed logs num plan rand).getD k default).authorEmail =
      (logs.getD k default).authorEmail) ∧
    (∀ k, num + 1 - plan.sum ≤ k → k ≤ num → ∃ t : Int,
      (redistributed logs num plan rand).getD k default =
        { logs.getD k default with authorDate := t, committerDate := t }) := by
  have hred := redistributed_eq logs num plan rand h29
  have hts := planTimestampsFrom_length
    (midnight ((logs.getD (num + 1 - plan.sum) default).authorDate))
    (redistributeEnvelope logs num (num + 1 - plan.sum)).1
    (redistributeEnvelope logs num (num + 1 - plan.sum)).2 rand plan 0
  refine ⟨?_, ?_, ?_, ?_, ?_, ?_⟩
  · rw [redistribute_commits_ok logs num plan rand h29, hred]
  · rw [hred]; exact applyTimestamps_length _ _ _
  · intro k hk
    rw [hred]
    exact applyTimestamps_getD_lt _ _ _ _ hk
  · intro k hk
    rw [hred]
    apply applyTimestamps_getD_ge
    unfold planTimestamps
    rw [hts]
    omega
  · intro k
    rcases Nat.lt_or_ge k (num + 1 - plan.sum) with hk | hk
    · rw [hred, applyTimestamps_getD_lt _ _ _ _ hk]
    · rcases Nat.lt_or_ge num k with hk2 | hk2
      · rw [hred, applyTimestamps_getD_ge _ _ _ _
          (by unfold planTimestamps; rw [hts]; omega)]
      · rw [hred, applyTimestamps_getD_window _ _ _ _ hk
          (by unfold planTimestamps; rw [hts]; omega) (by omega)]
  · intro k hk1 hk2
    refine ⟨(planTimestamps
      (midnight ((logs.getD (num + 1 - plan.sum) default).authorDate))
      (redistributeEnvelope logs num (num + 1 - plan.sum)).1
      (redistributeEnvelope logs num (num + 1 - plan.sum)).2 rand plan).getD
        (k - (num + 1 - plan.sum)) 0, ?_⟩
    rw [hred, applyTimestamps_getD_window _ _ _ _ hk1
      (by unfold planTimestamps; rw [hts]; omega) (by omega)]

/-- Witness for C4: with a 60-record log and the anchor at index 58, the
window is `[1, 58]`: records 0 and 59 are untouched and the length is
kept. -/
theorem redistribute_frame_witness :
    (redistributed logs60 58 plan29x2 randLo).getD 0 default =
      logs60.getD 0 default ∧
    (redistributed logs60 58 plan29x2 randLo).getD 59 default =
      logs60.getD 59 default ∧
    (redistributed logs60 58 plan29x2 randLo).length = 60 :=
  ⟨(redistribute_frame logs60 58 plan29x2 randLo (by decide) (by decide)
      (by decide)).2.2.1 0 (by decide),
    (redistribute_frame logs60 58 plan29x2 randLo (by decide) (by decide)
      (by decide)).2.2.2.1 59 (by decide),
    ((redistribute_frame logs60 58 plan29x2 randLo (by decide) (by decide)
      (by decide)).2.1).trans (by decide)⟩

/-- C5: a plan that is not exactly 29 entries long makes
`redistribute_commits` abort with the fatal error before touching any
record (the pass returns no rewritten list at all). -/
theorem redistribute_malformed_plan (logs : List Commit) (num : Nat)
    (plan : List Nat) (rand : Nat → Nat → Int → Int → Int)
    (h : plan.length ≠ 29) :
    redistribute_commits logs num plan rand =
      Except.error
        "Incorrect number of commit numbers generated by the Gauss distribution." ∧
      redistributed logs num plan rand = logs := by
  constructor
  · unfold redistribute_commits
    rw [if_pos h]
  · unfold redistributed redistribute_commits
    rw [if_pos h]

/-- Witness for C5: scenario B's 28-entry plan aborts the pass and leaves
the records as they were. -/
theorem redistribute_malformed_plan_witness :
    plan28.length = 28 ∧
      redistribute_commits logs58 57 plan28 randLo =
        Except.error
          "Incorrect number of commit numbers generated by the Gauss distribution." ∧
      redistributed logs58 57 plan28 randLo = logs58 :=
  ⟨by decide, (redistribute_malformed_plan logs58 57 plan28 randLo (by decide)).1,
    (redistribute_malformed_plan logs58 57 plan28 randLo (by decide)).2⟩

/-- C6 counterexample: with the contract-abiding draw sequence that answers
`hi` then `lo` on synthetic day 0, the first two rewritten records come out
with decreasing author dates (156 then 100), so the rewritten window is not
non-decreasing for every draw sequence. -/
theorem c6_intraday_order_counterexample :
    plan29x2.length = 29 ∧ plan29x2.sum = 58 ∧
      (∀ d i lo hi, lo ≤ hi →
        lo ≤ randHiLo d i lo hi ∧ randHiLo d i lo hi ≤ hi) ∧
      ((redistributed logs58 57 plan29x2 randHiLo).getD 0 default).authorDate = 156 ∧
      ((redistributed logs58 57 plan29x2 randHiLo).getD 1 default).authorDate = 100 :=
  ⟨by decide, by decide,
    fun d i lo hi h => by unfold randHiLo; split <;> omega,
    by decide, by decide⟩

/-- C6 (amended): the rewritten window is non-decreasing at calendar-day
granularity for every plan and every contract-abiding draw sequence — a
record later in window order never lands on an earlier synthetic day — but
order inside one day is not guaranteed (see the counterexample). -/
theorem redistribute_window_day_monotone (logs : List Commit) (num : Nat)
    (plan : List Nat) (rand : Nat → Nat → Int → Int → Int)
    (h29 : plan.length = 29) (h2 : 2 ≤ plan.sum)
    (hfit : plan.sum ≤ num + 1) (hnum : num < logs.length)
    (hrand : ∀ d i lo hi, lo ≤ hi →
      lo ≤ rand d i lo hi ∧ rand d i lo hi ≤ hi) :
    ∀ k1 k2, num + 1 - plan.sum ≤ k1 → k1 ≤ k2 → k2 ≤ num →
      calDay (((redistributed logs num plan rand).getD k1 default).authorDate) ≤
        calDay (((redistributed logs num plan rand).getD k2 default).authorDate) := by
  intro k1 k2 h1 h12 h2b
  have hred := redistributed_eq logs num plan rand h29
  have hsane := redistributeEnvelope_sane logs num (num + 1 - plan.sum)
    (by omega) hnum
  have hrand2 : ∀ d i,
      (redistributeEnvelope logs num (num + 1 - plan.sum)).1 ≤
        rand d i (redistributeEnvelope logs num (num + 1 - plan.sum)).1
          (redistributeEnvelope logs num (num + 1 - plan.sum)).2 ∧
      rand d i (redistributeEnvelope logs num (num + 1 - plan.sum)).1
          (redistributeEnvelope logs num (num + 1 - plan.sum)).2 ≤
        (redistributeEnvelope logs num (num + 1 - plan.sum)).2 :=
    fun d i => hrand d i _ _ hsane.2.1
  rw [hred]
  exact applyWindow_monotone logs (num + 1 - plan.sum)
    (midnight ((logs.getD (num + 1 - plan.sum) default).authorDate))
    (redistributeEnvelope logs num (num + 1 - plan.sum)).1
    (redistributeEnvelope logs num (num + 1 - plan.sum)).2
    rand plan (midnight_emod _) hsane.1 hsane.2.2 hrand2 (by omega)
    k1 k2 h1 h12 (by omega)

/-- Witness for the amended C6: the record on synthetic day 0 does not land
after the record on synthetic day 1. -/
theorem redistribute_window_day_monotone_witness :
    calDay (((redistributed logs58 57 plan29x2 randLo).getD 1 default).authorDate) ≤
      calDay (((redistributed logs58 57 plan29x2 randLo).getD 2 default).authorDate) :=
  redistribute_window_day_monotone logs58 57 plan29x2 randLo (by decide)
    (by decide) (by decide) (by decide)
    (fun d i lo hi h => ⟨le_refl lo, h⟩) 1 2 (by decide) (by decide) (by decide)

/-- C7 counterexample: at the exact window parameters of a run with a
51-total plan over `logs51x` (anchor 50, window start 0), the envelope the
code computes stops short of the anchor: the anchor's time of day 86000 is
outside the computed `(200, 249)`, while the spec's inclusive window gives
`(200, 86000)`. -/
theorem c7_envelope_excludes_anchor :
    plan51.length = 29 ∧ plan51.sum = 51 ∧
      (startCommit 50 plan51).toNat = 0 ∧
      timeOfDay ((logs51x.getD 50 default).authorDate) = 86000 ∧
      redistributeEnvelope logs51x 50 0 = (200, 249) ∧
      redistributeEnvelopeSpec logs51x 50 0 = (200, 86000) := by
  decide

/-- C7 (amended): the envelope is computed, before any mutation, over
exactly the window slice `[start, anchor - 1]` — the `plan.sum - 1`
commits before the anchor — and is therefore insensitive to the anchor
record itself. -/
theorem redistribute_envelope_window (logs : List Commit) (num : Nat)
    (plan : List Nat) (hfit : plan.sum ≤ num + 1) :
    redistributeEnvelope logs num (num + 1 - plan.sum) =
      compute_commit_time_period
        ((logs.drop (num + 1 - plan.sum)).take (plan.sum - 1)) ∧
    ∀ r : Commit,
      redistributeEnvelope (logs.set num r) num (num + 1 - plan.sum) =
        redistributeEnvelope logs num (num + 1 - plan.sum) := by
  constructor
  · unfold redistributeEnvelope
    have h : num - (num + 1 - plan.sum) = plan.sum - 1 := by omega
    rw [h]
  · intro r
    unfold redistributeEnvelope
    have hslice : ((logs.set num r).drop (num + 1 - plan.sum)).take
        (num - (num + 1 - plan.sum)) =
        (logs.drop (num + 1 - plan.sum)).take (num - (num + 1 - plan.sum)) := by
      apply List.ext_getElem?
      intro n
      rw [List.getElem?_take, List.getElem?_take]
      by_cases hn : n < num - (num + 1 - plan.sum)
      · rw [if_pos hn, if_pos hn, List.getElem?_drop, List.getElem?_drop,
          List.getElem?_set_ne (by omega)]
      · rw [if_neg hn, if_neg hn]
    rw [hslice]

/-- Witness for the amended C7 at the concrete run parameters of the
counterexample input. -/
theorem redistribute_envelope_window_witness :
    redistributeEnvelope logs51x 50 (50 + 1 - plan51.sum) =
      compute_commit_time_period
        ((logs51x.drop (50 + 1 - plan51.sum)).take (plan51.sum - 1)) ∧
    redistributeEnvelope
        (logs51x.set 50
          ({ authorEmail := "z", authorDate := 5, committerDate := 5 } : Commit))
        50 (50 + 1 - plan51.sum) =
      redistributeEnvelope logs51x 50 (50 + 1 - plan51.sum) :=
  ⟨(redistribute_envelope_window logs51x 50 plan51 (by decide)).1,
    (redistribute_envelope_window logs51x 50 plan51 (by decide)).2 _⟩

/-- C8 counterexample: the stated size precondition (at least 50 commits)
does not keep the window in bounds: with a 50-commit sequence, anchor at
the last index 49, and a contract-abiding plan totalling 60, the computed
window start is `-10`, so the pass reaches outside the intended window
(Python's negative indexing wraps to the end of the list and rewrites those
records twice). -/
theorem c8_negative_window_start :
    plan60.length = 29 ∧ plan60.sum = 60 ∧ 50 ≤ plan60.sum ∧ plan60.sum ≤ 60 ∧
      (List.replicate 50
        ({ authorEmail := "a", authorDate := 100, committerDate := 100 } : Commit)).length
        = 50 ∧
      startCommit 49 plan60 = -10 := by
  decide

/-- C8 (amended): once the sequence holds at least `plan.sum` commits
(so at least 60 covers every plan the generator may return), the window
start is nonnegative, the pass succeeds keeping the length, and every
window record is written exactly once: it equals the original record with
the two date fields set to the single timestamp of its window position. -/
theorem redistribute_inbounds (logs : List Commit) (num : Nat)
    (plan : List Nat) (rand : Nat → Nat → Int → Int → Int)
    (h29 : plan.length = 29) (hsum : 50 ≤ plan.sum)
    (hfit : plan.sum ≤ logs.length) (hnum : num = logs.length - 1) :
    0 ≤ startCommit num plan ∧
    redistribute_commits logs num plan rand =
      Except.ok (redistributed logs num plan rand) ∧
    (redistributed logs num plan rand).length = logs.length ∧
    ∀ k, num + 1 - plan.sum ≤ k → k ≤ num →
      (redistributed logs num plan rand).getD k default =
        { logs.getD k default with
            authorDate := (planTimestamps
              (midnight ((logs.getD (num + 1 - plan.sum) default).authorDate))
              (redistributeEnvelope logs num (num + 1 - plan.sum)).1
              (redistributeEnvelope logs num (num + 1 - plan.sum)).2 rand
              plan).getD (k - (num + 1 - plan.sum)) 0,
            committerDate := (planTimestamps
              (midnight ((logs.getD (num + 1 - plan.sum) default).authorDate))
              (redistributeEnvelope logs num (num + 1 - plan.sum)).1
              (redistributeEnvelope logs num (num + 1 - plan.sum)).2 rand
              plan).getD (k - (num + 1 - plan.sum)) 0 } := by
  have hred := redistributed_eq logs num plan rand h29
  have hts := planTimestampsFrom_length
    (midnight ((logs.getD (num + 1 - plan.sum) default).authorDate))
    (redistributeEnvelope logs num (num + 1 - plan.sum)).1
    (redistributeEnvelope logs num (num + 1 - plan.sum)).2 rand plan 0
  refine ⟨?_, ?_, ?_, ?_⟩
  · unfold startCommit
    omega
  · rw [redistribute_commits_ok logs num plan rand h29, hred]
  · rw [hred]; exact applyTimestamps_length _ _ _
  · intro k hk1 hk2
    rw [hred]
    exact applyTimestamps_getD_window _ _ _ _ hk1
      (by unfold planTimestamps; rw [hts]; omega) (by omega)

/-- Witness for the amended C8: 60 records cover the total-60 plan; the
window start is index 0 and the length is kept. -/
theorem redistribute_inbounds_witness :
    0 ≤ startCommit 59 plan60 ∧
      (redistributed logs60 59 plan60 randLo).length = 60 :=
  ⟨(redistribute_inbounds logs60 59 plan60 randLo (by decide) (by decide)
      (by decide) (by decide)).1,
    ((redistribute_inbounds logs60 59 plan60 randLo (by decide) (by decide)
      (by decide) (by decide)).2.2.1).trans (by decide)⟩
